import Mathlib

/-!
Shallow embedding of the dskit Redis cache client, src/cache/redis_client.go,
together with the surrounding dskit pieces that file calls into (the base
client with its asynchronous write queue, the concurrency gate, and the
doWithBatch batch driver). Those surrounding pieces are not part of the
given sources; each of their definitions is modelled from the specification
and marked as such in its doc comment.

Go strings are immutable byte sequences and the client treats them as such
(keys, values and backend replies); we model a Go string as a list of bytes.
-/

/-- A Go string: an immutable sequence of bytes. -/
abbrev GoString := List UInt8

/-- A Go byte slice header: the referenced bytes plus the capacity.
The length of the slice is the length of the data list. -/
structure GoByteSlice where
  data : List UInt8
  cap : Nat
deriving DecidableEq, Repr

/-- Embeds stringToBytes, redis_client.go lines 265-273: the unsafe
reinterpretation of the string header as a slice header, yielding a slice
over the very bytes of the string, with capacity set to the length of the
string. -/
def stringToBytes (s : GoString) : GoByteSlice :=
  { data := s, cap := s.length }

/-- The ordinary copying Go conversion of a string to a byte slice, written
from the words of the specification for the refinement comparison of the
zero copy conversion: a fresh slice holding exactly the bytes of the
string. -/
def byteSliceOfString (s : GoString) : GoByteSlice :=
  { data := s, cap := s.length }

/-- The fields of RedisClientConfig, redis_client.go lines 31-100, that the
verified claims depend on. endpointStr stands for Endpoint.String(), the
comma separated rendering of the endpoint list; tlsValid models whether
config.TLS.GetTLSConfig() succeeds (the TLS machinery itself is an external
collaborator). -/
structure RedisClientConfig where
  endpointStr : GoString
  maxItemSize : Int
  maxAsyncConcurrency : Int
  maxAsyncBufferSize : Int
  maxGetMultiConcurrency : Int
  getMultiBatchSize : Int
  tlsEnabled : Bool
  tlsValid : Bool
deriving DecidableEq, Repr

/-- The two configuration errors of redis_client.go lines 24-25. -/
inductive RedisConfigError where
  | noEndpoint
  | maxAsyncConcurrencyNotPositive
deriving DecidableEq, Repr

/-- Embeds RedisClientConfig.Validate, redis_client.go lines 127-136. -/
def Validate (c : RedisClientConfig) : Option RedisConfigError :=
  if c.endpointStr = [] then some RedisConfigError.noEndpoint
  else if c.maxAsyncConcurrency ≤ 0 then some RedisConfigError.maxAsyncConcurrencyNotPositive
  else none

/-- The part of the constructed redisClient, redis_client.go lines 138-148,
that the claims depend on: the configuration, and the GetMulti gate, which
is some limit when installed and none when it is left nil. -/
structure RedisClient where
  config : RedisClientConfig
  gateLimit : Option Int
deriving DecidableEq, Repr

/-- Embeds NewRedisClient, redis_client.go lines 151-193. The only failure
path is the TLS configuration, lines 167-173; the gate is installed exactly
when MaxGetMultiConcurrency is positive, lines 186-191. Note the function
does not call Validate. -/
def NewRedisClient (c : RedisClientConfig) : Except Unit RedisClient :=
  if c.tlsEnabled && !c.tlsValid then Except.error ()
  else Except.ok
    { config := c
      gateLimit :=
        if 0 < c.maxGetMultiConcurrency then some c.maxGetMultiConcurrency else none }

/-- Modelled from the spec, section 4.2: the state of the AsyncWriteQueue
of the base client (dskit code not under src/) — a stopped flag, the number
of queued tasks, and the buffer capacity. -/
structure AsyncQueue where
  stopped : Bool
  queued : Nat
  bufferSize : Nat
deriving DecidableEq, Repr

/-- Modelled from the spec, section 4.2: enqueue is non blocking and
returns false when the queue has been stopped or is full; otherwise it
accepts the task. -/
def AsyncQueue.enqueue (q : AsyncQueue) : AsyncQueue × Bool :=
  if q.stopped then (q, false)
  else if q.bufferSize ≤ q.queued then (q, false)
  else ({ q with queued := q.queued + 1 }, true)

/-- Modelled from the spec, section 4.2: stop makes the queue refuse all
further work; it is idempotent. -/
def AsyncQueue.stop (q : AsyncQueue) : AsyncQueue :=
  { q with stopped := true }

/-- Modelled from the spec, section 4.1: the SizeGuard — a configured
maximum of 0 always permits, otherwise it permits exactly the values whose
length is at most the maximum. -/
def sizeGuardPermits (maxSize valueLen : Nat) : Bool :=
  if maxSize = 0 then true else decide (valueLen ≤ maxSize)

/-- The synchronous outcome of a SetAsync or Delete call. -/
inductive SetResult where
  | accepted
  | sizeExceeded
  | queueFull
deriving DecidableEq, Repr

/-- Modelled from the spec, sections 4.1 and 4.5: baseClient.setAsync, the
function SetAsync of redis_client.go lines 196-201 delegates to (dskit code
not under src/) — an oversized value is rejected synchronously before any
enqueue; otherwise the non blocking enqueue is attempted and a full or
stopped queue yields the queue full error. -/
def setAsync (maxItemSize : Nat) (value : GoString) (q : AsyncQueue) : AsyncQueue × SetResult :=
  if sizeGuardPermits maxItemSize value.length then
    match q.enqueue with
    | (q2, true) => (q2, SetResult.accepted)
    | (q2, false) => (q2, SetResult.queueFull)
  else (q, SetResult.sizeExceeded)

/-- Modelled from the spec, section 4.5: baseClient.delete, the function
Delete of redis_client.go lines 249-253 delegates to (dskit code not under
src/) — enqueue exactly like SetAsync but with no size check. -/
def deleteOp (q : AsyncQueue) : AsyncQueue × SetResult :=
  match q.enqueue with
  | (q2, true) => (q2, SetResult.accepted)
  | (q2, false) => (q2, SetResult.queueFull)

/-- The lifecycle state Stop acts on: the async write queue plus the closed
flag of the backend connection. -/
structure RedisClientState where
  queue : AsyncQueue
  closed : Bool
deriving DecidableEq, Repr

/-- Embeds Stop, redis_client.go lines 256-263: stop the async queue, then
close the backend connection. -/
def Stop (st : RedisClientState) : RedisClientState :=
  { queue := st.queue.stop, closed := true }

/-- Modelled from the spec, section 4.3: one step of the concurrency gate
protocol around batch execution (the gate package is dskit code not under
src/). The state counts the batches in flight; with a limit of k a batch
may start only while fewer than k are in flight, and a finishing batch
releases its permit; with no limit every start is allowed. -/
inductive GateStep (limit : Option Nat) : Nat → Nat → Prop
  | start (n : Nat) (h : ∀ k, limit = some k → n < k) : GateStep limit n (n + 1)
  | done (n : Nat) : GateStep limit (n + 1) n

/-- The in flight counts of the gate protocol reachable from the idle
state. -/
def GateReach (limit : Option Nat) (n : Nat) : Prop :=
  Relation.ReflTransGen (GateStep limit) 0 n

/-- A valid configuration used to instantiate hypotheses. -/
def goodConfig : RedisClientConfig :=
  { endpointStr := [108], maxItemSize := 0, maxAsyncConcurrency := 50,
    maxAsyncBufferSize := 25000, maxGetMultiConcurrency := 100,
    getMultiBatchSize := 100, tlsEnabled := false, tlsValid := true }

/-- A configuration rejected by Validate (non positive async concurrency)
but with a non empty endpoint and sound TLS settings. -/
def badConfig : RedisClientConfig :=
  { endpointStr := [108], maxItemSize := 0, maxAsyncConcurrency := 0,
    maxAsyncBufferSize := 25000, maxGetMultiConcurrency := 100,
    getMultiBatchSize := 100, tlsEnabled := false, tlsValid := true }

/-- One element of the MGet reply array, redis_client.go line 218: the
backend reply for a key position is an interface value that is a string for
a hit, nil for a miss, or some unexpected shape (the default case of the
switch at lines 227-235). -/
inductive RedisReply where
  | str (s : GoString)
  | miss
  | other
deriving DecidableEq, Repr

/-- The results map of GetMulti, redis_client.go line 209, rendered as an
association list with Go map update semantics: a later assignment to the
same key overwrites the earlier entry. -/
abbrev ResultSet := List (GoString × GoByteSlice)

/-- Go map lookup on the results map. -/
def lookupRes : ResultSet → GoString → Option GoByteSlice
  | [], _ => none
  | (k, v) :: rest, q => if k = q then some v else lookupRes rest q

/-- Go map assignment on the results map: overwrite the entry of the key if
present, otherwise add it. -/
def insertRes : ResultSet → GoString → GoByteSlice → ResultSet
  | [], k, v => [(k, v)]
  | (k2, v2) :: rest, k, v =>
      if k2 = k then (k, v) :: rest else (k2, v2) :: insertRes rest k v

/-- Embeds the merge loop of GetMulti, redis_client.go lines 225-236: walk
the reply positions pairwise with the batch keys; a string reply stores
stringToBytes of the value under the key, while a nil reply (miss) and an
unexpected shape (logged) leave the map unchanged. -/
def mergeBatch : List GoString → List RedisReply → ResultSet → ResultSet
  | k :: ks, RedisReply.str s :: rs, results =>
      mergeBatch ks rs (insertRes results k (stringToBytes s))
  | _ :: ks, RedisReply.miss :: rs, results => mergeBatch ks rs results
  | _ :: ks, RedisReply.other :: rs, results => mergeBatch ks rs results
  | _, _, results => results

/-- The Go slice expression keys[startIndex:endIndex], redis_client.go
line 217. -/
def keySlice (keys : List GoString) (startIndex endIndex : Nat) : List GoString :=
  (keys.drop startIndex).take (endIndex - startIndex)

/-- Embeds the body of the batch callback of GetMulti, redis_client.go
lines 211-239, with the metrics and logging side effects dropped: slice the
keys for the batch, call the backend MGet, swallow a backend error (the
batch degrades to misses, lines 219-222), otherwise merge the replies. The
backend is an external collaborator modelled as a function from the batch
keys to a reply array or a transport error. -/
def getMultiBatchBody (mget : List GoString → Except Unit (List RedisReply))
    (keys : List GoString) (startIndex endIndex : Nat) (results : ResultSet) : ResultSet :=
  match mget (keySlice keys startIndex endIndex) with
  | Except.error _ => results
  | Except.ok resp => mergeBatch (keySlice keys startIndex endIndex) resp results

/-- Modelled from the spec, section 4.4: the batch partition loop of the
dskit doWithBatch driver (not under src/) — for i from 0 in steps of
batchSize while i < totalSize, the batch covers the index range
[i, min (i + batchSize) totalSize). The first argument is fuel bounding
the iteration count so the recursion is structural; totalSize itself always
suffices because each iteration advances i by at least one. -/
def batchRangesFuel : Nat → Nat → Nat → Nat → List (Nat × Nat)
  | 0, _, _, _ => []
  | Nat.succ fuel, B, i, N =>
      if 0 < B ∧ i < N then (i, min (i + B) N) :: batchRangesFuel fuel B (i + B) N
      else []

/-- The list of batch index ranges doWithBatch dispatches for totalSize
keys with the given batch size. -/
def batchRanges (B N : Nat) : List (Nat × Nat) := batchRangesFuel N B 0 N

/-- Modelled from the spec, sections 4.3, 4.4 and 7: the dskit doWithBatch
driver (not under src/), rendered sequentially batch by batch. Before a
batch is dispatched its gate permit is acquired; gf tells, per batch index,
whether that acquisition fails with the cancellation error of the caller
(always false when no gate is installed), in which case dispatching stops
and the error is returned (flag true) alongside the results merged so far.
A dispatched batch runs the callback; the returned middle component counts
the dispatched batches, that is the backend MGet invocations. -/
def doWithBatch (gf : Nat → Bool) (f : Nat → Nat → ResultSet → ResultSet) :
    List (Nat × Nat) → Nat → ResultSet → ResultSet × Nat × Bool
  | [], _, results => (results, 0, false)
  | r :: rs, idx, results =>
      if gf idx then (results, 0, true)
      else
        let out := doWithBatch gf f rs (idx + 1) (f r.1 r.2 results)
        (out.1, out.2.1 + 1, out.2.2)

/-- Embeds GetMulti, redis_client.go lines 204-246: an empty key list
returns nil at once (lines 205-207); otherwise the batches run under
doWithBatch and, when doWithBatch reports an error, the merged results are
discarded and nil is returned (lines 241-244); there is no error return. -/
def GetMulti (mget : List GoString → Except Unit (List RedisReply))
    (gf : Nat → Bool) (batchSize : Nat) (keys : List GoString) : Option ResultSet :=
  if keys.length = 0 then none
  else
    match doWithBatch gf (getMultiBatchBody mget keys) (batchRanges batchSize keys.length) 0 [] with
    | (_, _, true) => none
    | (results, _, false) => some results

/-- The number of backend MGet invocations a GetMulti call performs: none
at all for an empty key list, otherwise the batches dispatched by
doWithBatch. -/
def GetMultiCalls (mget : List GoString → Except Unit (List RedisReply))
    (gf : Nat → Bool) (batchSize : Nat) (keys : List GoString) : Nat :=
  if keys.length = 0 then 0
  else (doWithBatch gf (getMultiBatchBody mget keys) (batchRanges batchSize keys.length) 0 []).2.1

/-- The value the merge loop leaves for a key after one batch: the stored
conversion of the last string reply paired with that key, if any. Stated
over the pairing of batch keys with replies; used to characterize the
merge. -/
def lastHit : List (GoString × RedisReply) → GoString → Option GoByteSlice
  | [], _ => none
  | (k, r) :: rest, q =>
      (lastHit rest q).or
        (if k = q then
          match r with
          | RedisReply.str s => some (stringToBytes s)
          | _ => none
        else none)

/-- The value GetMulti leaves for a key after all batches: later batches
override earlier ones, a failed batch contributes nothing. -/
def rangesHit (mget : List GoString → Except Unit (List RedisReply))
    (keys : List GoString) : List (Nat × Nat) → GoString → Option GoByteSlice
  | [], _ => none
  | r :: rs, q =>
      (rangesHit mget keys rs q).or
        (match mget (keySlice keys r.1 r.2) with
          | Except.ok resp => lastHit ((keySlice keys r.1 r.2).zip resp) q
          | Except.error _ => none)

/-- A backend that replies with the same hit for every key of every batch. -/
def mgetAllHits : List GoString → Except Unit (List RedisReply) :=
  fun ks => Except.ok (ks.map fun _ => RedisReply.str [118])

/-- A backend that fails every batch outright. -/
def mgetAllFail : List GoString → Except Unit (List RedisReply) :=
  fun _ => Except.error ()

/-- A backend that fails exactly the batch [b, a] and answers every other
batch with hits; used with keys [b, a, a] and batch size 2 so that the
first batch fails and the second succeeds on the duplicated key a. -/
def mgetFailFirst : List GoString → Except Unit (List RedisReply) :=
  fun ks =>
    if ks = [[98], [97]] then Except.error ()
    else Except.ok (ks.map fun _ => RedisReply.str [118])

/-- The keys of the C3 counterexample: b, a, a. -/
def keysDup : List GoString := [[98], [97], [97]]

/-- The keys of the C1 counterexample: a, b. -/
def keysCancel : List GoString := [[97], [98]]

/-- A gate whose permit acquisition fails with the cancellation error at
the second batch (index 1). -/
def gfCancelAt1 : Nat → Bool := fun j => decide (j = 1)

/-- A gate on which every acquisition succeeds (also the shape of a client
with no gate installed). -/
def gfNone : Nat → Bool := fun _ => false

/-- C2 counterexample: a configuration with MaxAsyncConcurrency = 0 is
rejected by Validate, yet NewRedisClient still constructs and returns a
client — construction is not guarded by the Validate check. -/
theorem newRedisClient_not_guarded_cex :
    Validate badConfig = some RedisConfigError.maxAsyncConcurrencyNotPositive
      ∧ NewRedisClient badConfig =
          Except.ok { config := badConfig, gateLimit := some 100 } := by
  exact ⟨by decide, rfl⟩

/-- C2 (amended): Validate returns an error exactly when the endpoint is
empty or the maximum async concurrency is not positive; NewRedisClient
itself, however, performs no such validation — it succeeds exactly when the
TLS settings are usable, so the startup guard holds only for callers that
run Validate. -/
theorem validate_iff_and_construction (c : RedisClientConfig) :
    (Validate c = none ↔ (c.endpointStr ≠ [] ∧ 0 < c.maxAsyncConcurrency))
      ∧ ((∃ cl, NewRedisClient c = Except.ok cl) ↔ (c.tlsEnabled = true → c.tlsValid = true)) := by
  constructor
  · unfold Validate
    by_cases h1 : c.endpointStr = [] <;> by_cases h2 : c.maxAsyncConcurrency ≤ 0 <;>
      · simp [h1, h2]
        try omega
  · unfold NewRedisClient
    by_cases ht : c.tlsEnabled <;> by_cases hv : c.tlsValid <;> simp [ht, hv]

/-- C2 witness: the amended theorem instantiated at a concrete valid
configuration. -/
theorem validate_iff_and_construction_witness :
    Validate goodConfig = none ∧ ∃ cl, NewRedisClient goodConfig = Except.ok cl := by
  have h := validate_iff_and_construction goodConfig
  exact ⟨h.1.mpr (by decide), h.2.mpr (by decide)⟩

/-- C6: an oversized value (positive maximum, length above it) makes
setAsync return the size exceeded error synchronously with the queue left
untouched — in particular the enqueued count does not increase, so no
worker ever executes a backend Set for it; a maximum of 0 permits every
size and setAsync then never reports a size error. -/
theorem setAsync_size_guard (maxS : Nat) (v : GoString) (q : AsyncQueue) :
    (0 < maxS → maxS < v.length →
        setAsync maxS v q = (q, SetResult.sizeExceeded)
          ∧ (setAsync maxS v q).1.queued = q.queued)
      ∧ (maxS = 0 →
          sizeGuardPermits maxS v.length = true
            ∧ (setAsync maxS v q).2 ≠ SetResult.sizeExceeded) := by
  constructor
  · intro h1 h2
    have hg : sizeGuardPermits maxS v.length = false := by
      unfold sizeGuardPermits
      rw [if_neg (by omega)]
      simpa using by omega
    have hs : setAsync maxS v q = (q, SetResult.sizeExceeded) := by
      unfold setAsync
      rw [hg]
      simp
    exact ⟨hs, by rw [hs]⟩
  · intro h0
    subst h0
    refine ⟨rfl, ?_⟩
    unfold setAsync
    rw [show sizeGuardPermits 0 v.length = true from rfl]
    rcases hq : q.enqueue with ⟨q2, b⟩
    cases b <;> simp [hq]

/-- C6 witness: a value of length 2 against a maximum of 1 is rejected with
the queue unchanged, and a maximum of 0 permits it. -/
theorem setAsync_size_guard_witness :
    setAsync 1 [0, 0] { stopped := false, queued := 0, bufferSize := 10 } =
        ({ stopped := false, queued := 0, bufferSize := 10 }, SetResult.sizeExceeded)
      ∧ sizeGuardPermits 0 2 = true := by
  have h1 := setAsync_size_guard 1 [0, 0] { stopped := false, queued := 0, bufferSize := 10 }
  have h0 := setAsync_size_guard 0 [0, 0] { stopped := false, queued := 0, bufferSize := 10 }
  exact ⟨(h1.1 (by decide) (by decide)).1, (h0.2 rfl).1⟩

/-- C7: Stop is idempotent; after Stop the queue is stopped, enqueue always
returns false leaving the queue unchanged, a size permitting SetAsync
returns the queue full error, and Delete returns the queue full error — in
every case nothing is enqueued, so no backend Set or Del ever runs for such
a call, and all of this is plain total code (no panic, no blocking). -/
theorem stop_rejects_operations (st : RedisClientState) (maxS : Nat) (v : GoString) :
    Stop (Stop st) = Stop st
      ∧ (Stop st).queue.stopped = true
      ∧ (Stop st).queue.enqueue = ((Stop st).queue, false)
      ∧ (sizeGuardPermits maxS v.length = true →
          setAsync maxS v (Stop st).queue = ((Stop st).queue, SetResult.queueFull))
      ∧ deleteOp (Stop st).queue = ((Stop st).queue, SetResult.queueFull) := by
  have henq : (Stop st).queue.enqueue = ((Stop st).queue, false) := by
    unfold Stop AsyncQueue.stop AsyncQueue.enqueue
    simp
  refine ⟨rfl, rfl, henq, ?_, ?_⟩
  · intro hg
    unfold setAsync
    rw [hg, henq]
    simp
  · unfold deleteOp
    rw [henq]

/-- C7 witness: the theorem instantiated at a concrete running state, with
the size guard hypothesis discharged. -/
theorem stop_rejects_operations_witness :
    setAsync 0 [5] (Stop { queue := { stopped := false, queued := 0, bufferSize := 10 }, closed := false }).queue =
        ((Stop { queue := { stopped := false, queued := 0, bufferSize := 10 }, closed := false }).queue,
          SetResult.queueFull)
      ∧ Stop (Stop { queue := { stopped := false, queued := 0, bufferSize := 10 }, closed := false }) =
          Stop { queue := { stopped := false, queued := 0, bufferSize := 10 }, closed := false } := by
  have h := stop_rejects_operations
    { queue := { stopped := false, queued := 0, bufferSize := 10 }, closed := false } 0 [5]
  exact ⟨h.2.2.2.1 (by decide), h.1⟩

/-- C9: from a constructed client, the GetMulti gate is installed with
limit K exactly when MaxGetMultiConcurrency = K is positive and is absent
otherwise (unlimited); under the gate protocol with limit k, every state
reachable from idle has at most k batches in flight, while without a gate
every in flight count is reachable. -/
theorem gate_bounds_concurrency (c : RedisClientConfig) (cl : RedisClient)
    (hc : NewRedisClient c = Except.ok cl) :
    (0 < c.maxGetMultiConcurrency → cl.gateLimit = some c.maxGetMultiConcurrency)
      ∧ (c.maxGetMultiConcurrency ≤ 0 → cl.gateLimit = none)
      ∧ (∀ k n, GateReach (some k) n → n ≤ k)
      ∧ (∀ n, GateReach none n) := by
  unfold NewRedisClient at hc
  refine ⟨?_, ?_, ?_, ?_⟩
  · intro hK
    split at hc
    · exact absurd hc (by simp)
    · cases hc
      simp [if_pos hK]
  · intro hK
    split at hc
    · exact absurd hc (by simp)
    · cases hc
      simp
      omega
  · intro k n h
    induction h with
    | refl => omega
    | tail hs hstep ih =>
        cases hstep with
        | start m hstart => have := hstart k rfl; omega
        | done m => omega
  · intro n
    induction n with
    | zero => exact Relation.ReflTransGen.refl
    | succ m ih =>
        exact Relation.ReflTransGen.tail ih (GateStep.start m (fun k hk => nomatch hk))

/-- C9 witness: a client built with limit 3 carries the gate, one batch in
flight respects the bound, and without a gate two batches are reachable. -/
theorem gate_bounds_concurrency_witness :
    ({ config := goodConfig, gateLimit := some 100 } : RedisClient).gateLimit = some 100
      ∧ (1 : Nat) ≤ 2
      ∧ GateReach none 2 := by
  have h := gate_bounds_concurrency goodConfig
    { config := goodConfig, gateLimit := some 100 } rfl
  refine ⟨h.1 (by decide), ?_, h.2.2.2 2⟩
  exact h.2.2.1 2 1
    (Relation.ReflTransGen.single (GateStep.start 0 (fun k hk => by cases hk; omega)))

/-- Go map lookup after an assignment: the assigned key reads the new
value, every other key is unchanged. -/
theorem lookupRes_insertRes (m : ResultSet) (k q : GoString) (v : GoByteSlice) :
    lookupRes (insertRes m k v) q = if k = q then some v else lookupRes m q := by
  induction m with
  | nil => simp [insertRes, lookupRes]
  | cons p rest ih =>
      obtain ⟨k2, v2⟩ := p
      by_cases h : k2 = k
      · subst h
        by_cases hq : k2 = q <;> simp [insertRes, lookupRes, hq]
      · by_cases hq : k2 = q
        · subst hq
          have hkq : ¬ k = k2 := fun hh => h hh.symm
          simp [insertRes, h, lookupRes, hkq]
        · simp [insertRes, h, lookupRes, hq, ih]

/-- The merge loop of one batch, characterized: a key reads the conversion
of the last string reply paired with it in this batch, and otherwise keeps
whatever the map held before. -/
theorem lookupRes_mergeBatch (ks : List GoString) (rs : List RedisReply)
    (m : ResultSet) (q : GoString) :
    lookupRes (mergeBatch ks rs m) q = (lastHit (ks.zip rs) q).or (lookupRes m q) := by
  induction ks generalizing rs m with
  | nil => cases rs <;> simp [mergeBatch, lastHit]
  | cons k ks ih =>
      cases rs with
      | nil => simp [mergeBatch, lastHit]
      | cons r rs =>
          cases r with
          | str s =>
              show lookupRes (mergeBatch ks rs (insertRes m k (stringToBytes s))) q = _
              rw [ih]
              rw [List.zip_cons_cons]
              show _ = ((lastHit (ks.zip rs) q).or _).or _
              cases hl : lastHit (ks.zip rs) q with
              | some w => simp
              | none =>
                  simp only [Option.none_or]
                  rw [lookupRes_insertRes]
                  by_cases hk : k = q <;> simp [hk]
          | miss =>
              show lookupRes (mergeBatch ks rs m) q = _
              rw [ih, List.zip_cons_cons]
              show _ = ((lastHit (ks.zip rs) q).or _).or _
              cases hl : lastHit (ks.zip rs) q with
              | some w => simp
              | none => by_cases hk : k = q <;> simp [hk]
          | other =>
              show lookupRes (mergeBatch ks rs m) q = _
              rw [ih, List.zip_cons_cons]
              show _ = ((lastHit (ks.zip rs) q).or _).or _
              cases hl : lastHit (ks.zip rs) q with
              | some w => simp
              | none => by_cases hk : k = q <;> simp [hk]

/-- Or on options: a present first component wins. -/
theorem optSomeOr {a : GoByteSlice} (b : Option GoByteSlice) :
    (some a).or b = some a := rfl

/-- Or on options: an absent first component defers to the second. -/
theorem optNoneOr (b : Option GoByteSlice) : (Option.none).or b = b := rfl

/-- A stored batch value comes from a string reply paired with the looked
up key. -/
theorem lastHit_eq_some (l : List (GoString × RedisReply)) (q : GoString)
    (v : GoByteSlice) (h : lastHit l q = some v) :
    ∃ s, (q, RedisReply.str s) ∈ l ∧ v = stringToBytes s := by
  induction l with
  | nil => simp [lastHit] at h
  | cons p rest ih =>
      obtain ⟨k, r⟩ := p
      simp only [lastHit] at h
      cases hrest : lastHit rest q with
      | some w =>
          rw [hrest, optSomeOr] at h
          obtain ⟨s, hs, hv⟩ := ih (by rw [hrest, h])
          exact ⟨s, List.mem_cons_of_mem _ hs, hv⟩
      | none =>
          rw [hrest, optNoneOr] at h
          by_cases hk : k = q
          · subst hk
            cases r with
            | str s =>
                rw [if_pos rfl] at h
                refine ⟨s, List.mem_cons_self _ _, ?_⟩
                cases h
                rfl
            | miss => rw [if_pos rfl] at h; exact absurd h (by simp)
            | other => rw [if_pos rfl] at h; exact absurd h (by simp)
          · rw [if_neg hk] at h
            exact absurd h (by simp)

/-- A string reply paired with the key guarantees the batch stores a value
for it. -/
theorem lastHit_isSome_of_mem (l : List (GoString × RedisReply)) (q : GoString)
    (s : GoString) (h : (q, RedisReply.str s) ∈ l) :
    (lastHit l q).isSome = true := by
  induction l with
  | nil => simp at h
  | cons p rest ih =>
      rcases List.mem_cons.mp h with h | h
      · subst h
        simp only [lastHit]
        cases lastHit rest q <;> simp
      · have hr := ih h
        obtain ⟨k, r⟩ := p
        simp only [lastHit]
        cases hx : lastHit rest q with
        | some w => simp
        | none => rw [hx] at hr; simp at hr

/-- A value GetMulti ends up holding for a key comes from a string reply at
a position of that key inside some batch whose backend call succeeded. -/
theorem rangesHit_eq_some (mget : List GoString → Except Unit (List RedisReply))
    (keys : List GoString) (ranges : List (Nat × Nat)) (q : GoString)
    (v : GoByteSlice) (h : rangesHit mget keys ranges q = some v) :
    ∃ r ∈ ranges, ∃ resp, mget (keySlice keys r.1 r.2) = Except.ok resp
      ∧ ∃ s, (q, RedisReply.str s) ∈ (keySlice keys r.1 r.2).zip resp
        ∧ v = stringToBytes s := by
  induction ranges with
  | nil => simp [rangesHit] at h
  | cons r rs ih =>
      simp only [rangesHit] at h
      cases hrest : rangesHit mget keys rs q with
      | some w =>
          rw [hrest, optSomeOr] at h
          obtain ⟨r2, hr2, resp, hresp, s, hmem, hv⟩ := ih (by rw [hrest, h])
          exact ⟨r2, List.mem_cons_of_mem _ hr2, resp, hresp, s, hmem, hv⟩
      | none =>
          rw [hrest, optNoneOr] at h
          cases hm : mget (keySlice keys r.1 r.2) with
          | error e => rw [hm] at h; exact absurd h (by simp)
          | ok resp =>
              rw [hm] at h
              obtain ⟨s, hmem, hv⟩ := lastHit_eq_some _ _ _ h
              exact ⟨r, List.mem_cons_self _ _, resp, hm, s, hmem, hv⟩

/-- A string reply at a position of the key inside some successful batch
guarantees GetMulti ends up holding a value for the key. -/
theorem rangesHit_isSome (mget : List GoString → Except Unit (List RedisReply))
    (keys : List GoString) (ranges : List (Nat × Nat)) (q : GoString)
    (h : ∃ r ∈ ranges, ∃ resp, mget (keySlice keys r.1 r.2) = Except.ok resp
      ∧ ∃ s, (q, RedisReply.str s) ∈ (keySlice keys r.1 r.2).zip resp) :
    (rangesHit mget keys ranges q).isSome = true := by
  induction ranges with
  | nil => simp at h
  | cons r rs ih =>
      obtain ⟨r2, hr2, resp, hresp, s, hmem⟩ := h
      simp only [rangesHit]
      rcases List.mem_cons.mp hr2 with hr2 | hr2
      · subst hr2
        cases hrest : rangesHit mget keys rs q with
        | some w => simp
        | none =>
            rw [optNoneOr, hresp]
            exact lastHit_isSome_of_mem _ _ _ hmem
      · have hsome := ih ⟨r2, hr2, resp, hresp, s, hmem⟩
        cases hrest : rangesHit mget keys rs q with
        | some w => simp
        | none => rw [hrest] at hsome; simp at hsome

/-- Folding the batch bodies over a list of ranges, characterized: a key
reads the hit of the latest successful batch pairing it with a string
reply, and otherwise keeps whatever the map held before. -/
theorem lookupRes_foldBatches (mget : List GoString → Except Unit (List RedisReply))
    (keys : List GoString) (ranges : List (Nat × Nat)) (m : ResultSet) (q : GoString) :
    lookupRes (List.foldl (fun acc r => getMultiBatchBody mget keys r.1 r.2 acc) m ranges) q
      = (rangesHit mget keys ranges q).or (lookupRes m q) := by
  induction ranges generalizing m with
  | nil => simp [rangesHit]
  | cons r rs ih =>
      rw [List.foldl_cons, ih]
      simp only [rangesHit]
      rw [Option.or_assoc]
      congr 1
      unfold getMultiBatchBody
      cases hm : mget (keySlice keys r.1 r.2) with
      | error e => rfl
      | ok resp => exact lookupRes_mergeBatch _ _ _ _

/-- When no gate acquisition fails among the dispatched batches, doWithBatch
dispatches every batch: the results are the fold of the bodies, every range
is dispatched (one backend call each), and no error is reported. -/
theorem doWithBatch_noGateFail (gf : Nat → Bool) (f : Nat → Nat → ResultSet → ResultSet)
    (ranges : List (Nat × Nat)) (idx : Nat) (m : ResultSet)
    (h : ∀ j, j < ranges.length → gf (idx + j) = false) :
    doWithBatch gf f ranges idx m =
      (List.foldl (fun acc r => f r.1 r.2 acc) m ranges, ranges.length, false) := by
  induction ranges generalizing idx m with
  | nil => simp [doWithBatch]
  | cons r rs ih =>
      have h0 : gf idx = false := by simpa using h 0 (by simp)
      have hrec := ih (idx + 1) (f r.1 r.2 m) (fun j hj => by
        have := h (j + 1) (by simpa using Nat.succ_lt_succ hj)
        rwa [show idx + (j + 1) = idx + 1 + j by omega] at this)
      simp only [doWithBatch, h0]
      rw [hrec]
      simp

/-- The error flag of doWithBatch is raised exactly when some dispatched
batch index has a failing gate acquisition. -/
theorem doWithBatch_flag (gf : Nat → Bool) (f : Nat → Nat → ResultSet → ResultSet)
    (ranges : List (Nat × Nat)) (idx : Nat) (m : ResultSet) :
    (doWithBatch gf f ranges idx m).2.2 = true
      ↔ ∃ j, j < ranges.length ∧ gf (idx + j) = true := by
  induction ranges generalizing idx m with
  | nil => simp [doWithBatch]
  | cons r rs ih =>
      by_cases h0 : gf idx = true
      · simp only [doWithBatch, h0, if_pos rfl]
        constructor
        · intro _
          exact ⟨0, by simp, by simpa using h0⟩
        · intro _
          rfl
      · have h0f : gf idx = false := by simpa using h0
        simp only [doWithBatch, h0f]
        rw [if_neg (by simp : ¬ (false = true))]
        constructor
        · intro hflag
          obtain ⟨j, hj, hg⟩ := (ih (idx + 1) (f r.1 r.2 m)).mp hflag
          exact ⟨j + 1, by simpa using Nat.succ_lt_succ hj,
            by rwa [show idx + (j + 1) = idx + 1 + j by omega]⟩
        · intro hex
          obtain ⟨j, hj, hg⟩ := hex
          cases j with
          | zero => rw [Nat.add_zero] at hg; exact absurd hg h0
          | succ j2 =>
              refine (ih (idx + 1) (f r.1 r.2 m)).mpr ⟨j2, ?_, ?_⟩
              · simpa using Nat.lt_of_succ_lt_succ hj
              · rwa [show idx + 1 + j2 = idx + (j2 + 1) by omega]

/-- One step of the ceiling division recurrence the partition loop
follows. -/
theorem ceilDiv_step (B M : Nat) (hB : 0 < B) (hM : 0 < M) :
    (M + B - 1) / B = (M - B + B - 1) / B + 1 := by
  by_cases h : B ≤ M
  · have he : M + B - 1 = (M - B + B - 1) + B := by omega
    rw [he, Nat.add_div_right _ hB]
  · have h1 : M - B = 0 := by omega
    rw [h1]
    have h2 : (0 + B - 1) / B = 0 := Nat.div_eq_of_lt (by omega)
    rw [h2]
    exact Nat.div_eq_of_lt_le (by omega) (by omega)

/-- The partition loop performs exactly the ceiling of the remaining key
count divided by the batch size many iterations, given enough fuel. -/
theorem batchRangesFuel_length (fuel : Nat) : ∀ (B i N : Nat), N - i ≤ fuel → 0 < B →
    (batchRangesFuel fuel B i N).length = (N - i + B - 1) / B := by
  induction fuel with
  | zero =>
      intro B i N hf hB
      have hd : (N - i + B - 1) / B = 0 := Nat.div_eq_of_lt (by omega)
      simp [batchRangesFuel, hd]
  | succ fuel ih =>
      intro B i N hf hB
      by_cases hiN : i < N
      · rw [show batchRangesFuel (fuel + 1) B i N
            = (i, min (i + B) N) :: batchRangesFuel fuel B (i + B) N from by
          simp [batchRangesFuel, hB, hiN]]
        rw [List.length_cons, ih B (i + B) N (by omega) hB]
        rw [show N - (i + B) = N - i - B by omega]
        exact (ceilDiv_step B (N - i) hB (by omega)).symm
      · have hd : (N - i + B - 1) / B = 0 := Nat.div_eq_of_lt (by omega)
        simp [batchRangesFuel, hiN, hd]

/-- The key slices of the partition ranges concatenate back, in order, to
the keys not yet consumed. -/
theorem batchRangesFuel_flatten (fuel : Nat) : ∀ (B i : Nat) (keys : List GoString),
    keys.length - i ≤ fuel → 0 < B →
    ((batchRangesFuel fuel B i keys.length).map (fun r => keySlice keys r.1 r.2)).flatten
      = keys.drop i := by
  induction fuel with
  | zero =>
      intro B i keys hf hB
      have hle : keys.length ≤ i := by omega
      simp [batchRangesFuel, List.drop_eq_nil_of_le hle]
  | succ fuel ih =>
      intro B i keys hf hB
      by_cases hiN : i < keys.length
      · rw [show batchRangesFuel (fuel + 1) B i keys.length
            = (i, min (i + B) keys.length) :: batchRangesFuel fuel B (i + B) keys.length from by
          simp [batchRangesFuel, hB, hiN]]
        rw [List.map_cons, List.flatten_cons, ih B (i + B) keys (by omega) hB]
        unfold keySlice
        have hlen : (keys.drop i).length = keys.length - i := List.length_drop i keys
        by_cases hc : i + B ≤ keys.length
        · rw [min_eq_left hc, show i + B - i = B by omega,
            show keys.drop (i + B) = (keys.drop i).drop B from (List.drop_drop B i keys).symm]
          exact List.take_append_drop B (keys.drop i)
        · rw [min_eq_right (by omega : keys.length ≤ i + B),
            show keys.length - i = (keys.drop i).length from hlen.symm, List.take_length,
            List.drop_eq_nil_of_le (by omega : keys.length ≤ i + B), List.append_nil]
      · have hle : keys.length ≤ i := by omega
        simp [batchRangesFuel, hiN, List.drop_eq_nil_of_le hle]

/-- Every range the partition loop produces is a non empty contiguous piece
of at most batchSize indices ending at min (start + batchSize) totalSize
and lying inside the key list. -/
theorem batchRangesFuel_mem (fuel : Nat) : ∀ (B i N : Nat) (r : Nat × Nat),
    N - i ≤ fuel → 0 < B → r ∈ batchRangesFuel fuel B i N →
    i ≤ r.1 ∧ r.1 < r.2 ∧ r.2 ≤ N ∧ r.2 - r.1 ≤ B ∧ r.2 = min (r.1 + B) N := by
  induction fuel with
  | zero =>
      intro B i N r hf hB hr
      simp [batchRangesFuel] at hr
  | succ fuel ih =>
      intro B i N r hf hB hr
      by_cases hiN : i < N
      · rw [show batchRangesFuel (fuel + 1) B i N
            = (i, min (i + B) N) :: batchRangesFuel fuel B (i + B) N from by
          simp [batchRangesFuel, hB, hiN]] at hr
        rcases List.mem_cons.mp hr with hr | hr
        · subst hr
          refine ⟨Nat.le_refl i, by omega, by omega, by omega, rfl⟩
        · have := ih B (i + B) N r (by omega) hB hr
          exact ⟨by omega, this.2.1, this.2.2.1, this.2.2.2.1, this.2.2.2.2⟩
      · simp [batchRangesFuel, hiN] at hr

/-- When every gate acquisition among the dispatched batches succeeds,
GetMulti on a non empty key list returns the fold of the batch bodies over
the partition. -/
theorem getMulti_eq_some_fold (mget : List GoString → Except Unit (List RedisReply))
    (gf : Nat → Bool) (B : Nat) (keys : List GoString) (hne : 0 < keys.length)
    (hgf : ∀ j, j < (batchRanges B keys.length).length → gf j = false) :
    GetMulti mget gf B keys =
      some (List.foldl (fun acc r => getMultiBatchBody mget keys r.1 r.2 acc) []
        (batchRanges B keys.length)) := by
  unfold GetMulti
  rw [if_neg (by omega)]
  rw [doWithBatch_noGateFail gf _ _ 0 [] (fun j hj => by simpa using hgf j hj)]

/-- C8: GetMulti on the empty key list returns the nil result immediately
and performs no backend invocation at all. -/
theorem getMulti_empty (mget : List GoString → Except Unit (List RedisReply))
    (gf : Nat → Bool) (B : Nat) :
    GetMulti mget gf B [] = none ∧ GetMultiCalls mget gf B [] = 0 :=
  ⟨rfl, rfl⟩

/-- C5: on a non empty key list with positive batch size and no gate
failure, GetMulti performs exactly the ceiling of N divided by B backend
MGet invocations; the batch inputs are the contiguous slices of the key
list given by the partition ranges, they concatenate in order back to the
key list, every batch is non empty with at most B keys, and every batch
except one ending at the end of the key list (the last) has exactly B
keys. -/
theorem getMulti_batches_exact (mget : List GoString → Except Unit (List RedisReply))
    (gf : Nat → Bool) (keys : List GoString) (B : Nat)
    (hB : 0 < B) (hne : 0 < keys.length) (hgf : ∀ i, gf i = false) :
    GetMultiCalls mget gf B keys = (keys.length + B - 1) / B
      ∧ ((batchRanges B keys.length).map (fun r => keySlice keys r.1 r.2)).flatten = keys
      ∧ (∀ r ∈ batchRanges B keys.length,
          keySlice keys r.1 r.2 = (keys.drop r.1).take (r.2 - r.1)
            ∧ 0 < r.2 - r.1 ∧ r.2 - r.1 ≤ B
            ∧ (r.2 - r.1 = B ∨ r.2 = keys.length)) := by
  refine ⟨?_, ?_, ?_⟩
  · unfold GetMultiCalls
    rw [if_neg (by omega)]
    rw [doWithBatch_noGateFail gf _ _ 0 [] (fun j hj => hgf (0 + j))]
    show (batchRanges B keys.length).length = _
    unfold batchRanges
    rw [batchRangesFuel_length keys.length B 0 keys.length (by omega) hB]
    congr 1
  · unfold batchRanges
    have h := batchRangesFuel_flatten keys.length B 0 keys (by omega) hB
    simpa using h
  · intro r hr
    obtain ⟨h1, h2, h3, h4, h5⟩ :=
      batchRangesFuel_mem keys.length B 0 keys.length r (by omega) hB hr
    exact ⟨rfl, by omega, by omega, by omega⟩

/-- C5 witness: three keys with batch size two make exactly two backend
calls. -/
theorem getMulti_batches_exact_witness :
    GetMultiCalls mgetAllHits gfNone 2 [[97], [98], [99]] = 2 := by
  have h := getMulti_batches_exact mgetAllHits gfNone [[97], [98], [99]] 2
    (by decide) (by decide) (fun _ => rfl)
  exact h.1.trans (by decide)

/-- C1 (amended): on a non empty key list, if the gate permit acquisition
of some dispatched batch fails with the cancellation error of the caller,
GetMulti returns nil — discarding the results of the batches that had
already completed and merged — while still surfacing no error value (the
signature has no error return); only when every acquisition succeeds does
GetMulti return the merge of all batches. -/
theorem getMulti_cancel_discards (mget : List GoString → Except Unit (List RedisReply))
    (gf : Nat → Bool) (B : Nat) (keys : List GoString) (hne : 0 < keys.length) :
    ((∃ j, j < (batchRanges B keys.length).length ∧ gf j = true) →
        GetMulti mget gf B keys = none)
      ∧ ((∀ j, j < (batchRanges B keys.length).length → gf j = false) →
        GetMulti mget gf B keys = some (List.foldl
          (fun acc r => getMultiBatchBody mget keys r.1 r.2 acc) []
          (batchRanges B keys.length))) := by
  constructor
  · intro hex
    have hflag : (doWithBatch gf (getMultiBatchBody mget keys)
        (batchRanges B keys.length) 0 []).2.2 = true := by
      rw [doWithBatch_flag]
      obtain ⟨j, hj, hg⟩ := hex
      exact ⟨j, hj, by simpa using hg⟩
    unfold GetMulti
    rw [if_neg (by omega)]
    rcases hrun : doWithBatch gf (getMultiBatchBody mget keys)
        (batchRanges B keys.length) 0 [] with ⟨m2, n2, b⟩
    rw [hrun] at hflag
    simp only at hflag
    subst hflag
    rfl
  · intro hall
    exact getMulti_eq_some_fold mget gf B keys hne hall

/-- C1 witness: the amended theorem instantiated at a concrete two batch
call whose second gate acquisition is cancelled. -/
theorem getMulti_cancel_discards_witness :
    GetMulti mgetAllHits gfCancelAt1 1 keysCancel = none :=
  (getMulti_cancel_discards mgetAllHits gfCancelAt1 1 keysCancel (by decide)).1
    ⟨1, by decide, by decide⟩

/-- C1 counterexample: a two key call with batch size one whose first batch
completes and merges a hit before the gate acquisition of the second batch
fails with the cancellation error; GetMulti returns nil, not the merged
results of the completed batch. -/
theorem getMulti_cancel_cex :
    GetMulti mgetAllHits gfCancelAt1 1 keysCancel = none
      ∧ (doWithBatch gfCancelAt1 (getMultiBatchBody mgetAllHits keysCancel)
            (batchRanges 1 keysCancel.length) 0 []).1
          = [([97], stringToBytes [118])]
      ∧ getMultiBatchBody mgetAllHits keysCancel 0 1 [] = [([97], stringToBytes [118])] := by
  refine ⟨by decide, by decide, by decide⟩

/-- C3 (amended): with every gate acquisition succeeding and a backend
honouring the reply length contract, GetMulti never fails: it returns a
results map (not nil); a key whose every occurrence lies in batches whose
backend MGet failed is absent from the map (the failed batches degrade to
misses); and a key carrying a string reply in some successful batch is
present (a failing batch aborts neither its siblings nor the call). A key
of a failed batch can still be present when it also occurs in a successful
batch, which is what the counterexample exhibits. -/
theorem getMulti_partial_failure (mget : List GoString → Except Unit (List RedisReply))
    (gf : Nat → Bool) (keys : List GoString) (B : Nat)
    (hne : 0 < keys.length) (hgf : ∀ i, gf i = false)
    (_hlen : ∀ ks resp, mget ks = Except.ok resp → resp.length = ks.length) :
    ∃ m, GetMulti mget gf B keys = some m
      ∧ (∀ q : GoString,
          (∀ r ∈ batchRanges B keys.length, q ∈ keySlice keys r.1 r.2 →
              mget (keySlice keys r.1 r.2) = Except.error ()) →
            lookupRes m q = none)
      ∧ (∀ q : GoString, ∀ r ∈ batchRanges B keys.length, ∀ resp,
          mget (keySlice keys r.1 r.2) = Except.ok resp →
          (∃ s, (q, RedisReply.str s) ∈ (keySlice keys r.1 r.2).zip resp) →
            (lookupRes m q).isSome = true) := by
  refine ⟨_, getMulti_eq_some_fold mget gf B keys hne (fun j hj => hgf j), ?_, ?_⟩
  · intro q hfail
    rw [lookupRes_foldBatches]
    cases hx : rangesHit mget keys (batchRanges B keys.length) q with
    | none => rfl
    | some v =>
        obtain ⟨r, hr, resp, hresp, s, hmem, hv⟩ := rangesHit_eq_some _ _ _ _ _ hx
        have hq : q ∈ keySlice keys r.1 r.2 := (List.of_mem_zip hmem).1
        rw [hfail r hr hq] at hresp
        exact absurd hresp (by simp)
  · intro q r hr resp hresp hex
    rw [lookupRes_foldBatches]
    obtain ⟨s, hs⟩ := hex
    have hsome := rangesHit_isSome mget keys (batchRanges B keys.length) q
      ⟨r, hr, resp, hresp, s, hs⟩
    cases hx : rangesHit mget keys (batchRanges B keys.length) q with
    | none => rw [hx] at hsome; simp at hsome
    | some v => rfl

/-- C3 counterexample: keys b, a, a with batch size two partition into the
batches [b, a] and [a]; the backend fails the first batch and serves the
second, so the key a — a key of the failed batch — is nevertheless present
in the returned mapping, refuting the absence of all keys of a failed
batch. -/
theorem getMulti_partial_failure_cex :
    mgetFailFirst (keySlice keysDup 0 2) = Except.error ()
      ∧ ([97] : GoString) ∈ keySlice keysDup 0 2
      ∧ GetMulti mgetFailFirst gfNone 2 keysDup = some [([97], stringToBytes [118])]
      ∧ lookupRes [([97], stringToBytes [118])] [97] = some (stringToBytes [118]) := by
  refine ⟨rfl, by decide, by decide, by decide⟩

/-- C3 witness: the amended theorem instantiated at a backend failing every
batch — the call still returns a map and the key is a miss. -/
theorem getMulti_partial_failure_witness :
    (GetMulti mgetAllFail gfNone 1 [[99]]).map (fun m => lookupRes m [99]) = some none := by
  obtain ⟨m, hm, habs, -⟩ := getMulti_partial_failure mgetAllFail gfNone [[99]] 1
    (by decide) (fun _ => rfl) (fun ks resp h => by simp [mgetAllFail] at h)
  have h2 := habs [99] (fun r hr hq => rfl)
  rw [hm]
  simp [h2]

/-- C4: with every gate acquisition succeeding and a backend honouring the
reply length contract, GetMulti returns a map in which a key is present
exactly when some successful batch pairs one of its positions with a string
reply; the stored value is stringToBytes of such a reply string (never an
empty or placeholder value of its own making, and nothing for nil or
unexpected reply shapes); and every key of the map is a key of the
request. -/
theorem getMulti_result_characterization (mget : List GoString → Except Unit (List RedisReply))
    (gf : Nat → Bool) (keys : List GoString) (B : Nat)
    (hne : 0 < keys.length) (hgf : ∀ i, gf i = false)
    (_hlen : ∀ ks resp, mget ks = Except.ok resp → resp.length = ks.length) :
    ∃ m, GetMulti mget gf B keys = some m
      ∧ ∀ q : GoString,
          ((lookupRes m q).isSome = true ↔
            ∃ r ∈ batchRanges B keys.length, ∃ resp,
              mget (keySlice keys r.1 r.2) = Except.ok resp
                ∧ ∃ s, (q, RedisReply.str s) ∈ (keySlice keys r.1 r.2).zip resp)
          ∧ (∀ v, lookupRes m q = some v →
              ∃ s, v = stringToBytes s ∧ ∃ r ∈ batchRanges B keys.length, ∃ resp,
                mget (keySlice keys r.1 r.2) = Except.ok resp
                  ∧ (q, RedisReply.str s) ∈ (keySlice keys r.1 r.2).zip resp)
          ∧ ((lookupRes m q).isSome = true → q ∈ keys) := by
  refine ⟨_, getMulti_eq_some_fold mget gf B keys hne (fun j hj => hgf j), ?_⟩
  intro q
  have hlk : lookupRes (List.foldl (fun acc r => getMultiBatchBody mget keys r.1 r.2 acc) []
      (batchRanges B keys.length)) q = rangesHit mget keys (batchRanges B keys.length) q := by
    rw [lookupRes_foldBatches]
    cases rangesHit mget keys (batchRanges B keys.length) q <;> rfl
  refine ⟨?_, ?_, ?_⟩
  · rw [hlk]
    constructor
    · intro hs
      obtain ⟨v, hv⟩ := Option.isSome_iff_exists.mp hs
      obtain ⟨r, hr, resp, hresp, s, hmem, hvs⟩ := rangesHit_eq_some _ _ _ _ _ hv
      exact ⟨r, hr, resp, hresp, s, hmem⟩
    · intro hex
      obtain ⟨r, hr, resp, hresp, s, hmem⟩ := hex
      exact rangesHit_isSome _ _ _ _ ⟨r, hr, resp, hresp, s, hmem⟩
  · intro v hv
    rw [hlk] at hv
    obtain ⟨r, hr, resp, hresp, s, hmem, hvs⟩ := rangesHit_eq_some _ _ _ _ _ hv
    exact ⟨s, hvs, r, hr, resp, hresp, hmem⟩
  · intro hs
    rw [hlk] at hs
    obtain ⟨v, hv⟩ := Option.isSome_iff_exists.mp hs
    obtain ⟨r, hr, resp, hresp, s, hmem, hvs⟩ := rangesHit_eq_some _ _ _ _ _ hv
    have hq := (List.of_mem_zip hmem).1
    unfold keySlice at hq
    exact List.drop_subset _ _ (List.take_subset _ _ hq)

/-- C4 witness: a single key answered with a string reply is present in the
result. -/
theorem getMulti_result_characterization_witness :
    (GetMulti mgetAllHits gfNone 1 [[97]]).map (fun m => (lookupRes m [97]).isSome)
      = some true := by
  obtain ⟨m, hm, hq⟩ := getMulti_result_characterization mgetAllHits gfNone [[97]] 1
    (by decide) (fun _ => rfl) (fun ks resp h => by cases h; simp)
  have h1 := (hq [97]).1.mpr
    ⟨(0, 1), by decide, [RedisReply.str [118]], rfl, [118], by decide⟩
  rw [hm]
  simp [h1]

/-- C10: the zero copy conversion stringToBytes is observationally the
copying conversion — identical bytes, length that of the string — and every
value the merge loop of GetMulti stores for a key that was not already
present is that conversion of a string reply paired with the key, so every
hit value equals the bytes of the backend reply string at the position of
its key. -/
theorem stringToBytes_eq_copy :
    (∀ s : GoString, stringToBytes s = byteSliceOfString s
        ∧ (stringToBytes s).data = s ∧ (stringToBytes s).data.length = s.length)
      ∧ (∀ (ks : List GoString) (rs : List RedisReply) (m : ResultSet)
          (q : GoString) (v : GoByteSlice),
          lookupRes (mergeBatch ks rs m) q = some v →
            lookupRes m q = some v
              ∨ ∃ s, (q, RedisReply.str s) ∈ ks.zip rs ∧ v = byteSliceOfString s) := by
  refine ⟨fun s => ⟨rfl, rfl, rfl⟩, ?_⟩
  intro ks rs m q v h
  rw [lookupRes_mergeBatch] at h
  cases hx : lastHit (ks.zip rs) q with
  | none => rw [hx, optNoneOr] at h; exact Or.inl h
  | some w =>
      rw [hx, optSomeOr] at h
      obtain ⟨s, hs, hv⟩ := lastHit_eq_some _ _ _ hx
      cases h
      exact Or.inr ⟨s, hs, hv⟩

/-- C10 witness: the conversion equality at a concrete string, and the
merge of a concrete hit reply storing exactly that conversion. -/
theorem stringToBytes_eq_copy_witness :
    stringToBytes [97] = byteSliceOfString [97]
      ∧ (lookupRes ([] : ResultSet) [97] = some (stringToBytes [118])
          ∨ ∃ s, (([97] : GoString), RedisReply.str s)
              ∈ ([[97]] : List GoString).zip [RedisReply.str [118]]
              ∧ stringToBytes [118] = byteSliceOfString s) := by
  refine ⟨(stringToBytes_eq_copy.1 [97]).1, ?_⟩
  exact stringToBytes_eq_copy.2 [[97]] [RedisReply.str [118]] [] [97]
    (stringToBytes [118]) (by decide)
